import Mathlib

/-!
Verification development for the multi-tenant project cloning script
(`scripts/clone_project.py`).

Strings are modelled as `List Char`.  The script's three regular
expressions all have the same shape: a fixed-width lookbehind literal
`L`, a lazy body (`.*?`, which cannot cross a newline, or `[\s\S]*?`,
which can), and a lookahead literal `R`.  `Python`'s `re.sub` with such a
pattern scans the subject left to right; at each position it matches when
the preceding characters end with `L` and a minimal run of body
characters is followed by `R`; the run (which may be empty) is replaced
by the value of the replacement function, the lookaround literals are
not consumed, and scanning resumes at the end of the run (one character
further when the run was empty, per `re.sub` empty-match handling).
That scan is embedded below as `reSub` / `reSubAux`, written with
explicit fuel so that every function is structurally recursive and
kernel-reducible.
-/

/-- Lazy body match of `.*?` (or `[\s\S]*?` when `nl` is `true`) up to the
lookahead literal `R`: returns the shortest admissible interior together
with the rest of the input (which still starts with `R`). -/
def lazyUpto (nl : Bool) (R : List Char) : List Char → Option (List Char × List Char)
  | [] => if R.isPrefixOf ([] : List Char) then some ([], []) else none
  | c :: cs =>
    if R.isPrefixOf (c :: cs) then some ([], c :: cs)
    else if nl = false ∧ c = '\n' then none
    else
      match lazyUpto nl R cs with
      | none => none
      | some (i, r) => some (c :: i, r)

/-- One `re.sub` scan for a pattern `(?<=L)body*?(?=R)`.  `lookRev` is the
already-scanned text, reversed (the lookbehind inspects the original
subject, so replacements are accumulated separately in the result).
`fuel` only bounds the recursion; every step consumes at least one
character of `s`, so `s.length + 1` fuel always suffices. -/
def reSubAux (L : List Char) (nl : Bool) (R : List Char) (f : List Char → List Char) :
    Nat → List Char → List Char → List Char
  | 0, _, _ => []
  | fuel + 1, lookRev, s =>
    match (if L.reverse.isPrefixOf lookRev then lazyUpto nl R s else none) with
    | some (i, r) =>
      match i with
      | [] =>
        f [] ++
          (match s with
           | [] => []
           | c :: cs => c :: reSubAux L nl R f fuel (c :: lookRev) cs)
      | _ :: _ => f i ++ reSubAux L nl R f fuel (i.reverse ++ lookRev) r
    | none =>
      match s with
      | [] => []
      | c :: cs => c :: reSubAux L nl R f fuel (c :: lookRev) cs

/-- `re.sub(pattern, f, s)` for a lookaround pattern as above. -/
def reSub (L : List Char) (nl : Bool) (R : List Char) (f : List Char → List Char)
    (s : List Char) : List Char :=
  reSubAux L nl R f (s.length + 1) [] s

/-- Substring test: models the truthiness of `re.findall(pat, s)` for a
pattern `pat` that contains no regex metacharacters (the script only ever
searches for its literal `schema=..., alias=...` text, built from plain
tenant and file names). -/
def containsSub (pat : List Char) : List Char → Bool
  | [] => pat.isPrefixOf ([] : List Char)
  | c :: t => pat.isPrefixOf (c :: t) || containsSub pat t

/-! ### ModelParser (`scripts/clone_project.py`, class `ModelParser`)

`REF_SINGLE_QUOTE = "(?<=ref\(').*?(?='\))"`,
`REF_DOUBLE_QUOTE = '(?<=ref\(").*?(?="\))'`,
`CONFIG_SEARCH = '(?<=config\()[\s\S]*?(?=\))'`. -/

/-- Lookbehind literal of `REF_SINGLE_QUOTE`. -/
def refSingleL : List Char := "ref('".toList

/-- Lookahead literal of `REF_SINGLE_QUOTE`. -/
def refSingleR : List Char := "')".toList

/-- Lookbehind literal of `REF_DOUBLE_QUOTE`. -/
def refDoubleL : List Char := "ref(\"".toList

/-- Lookahead literal of `REF_DOUBLE_QUOTE`. -/
def refDoubleR : List Char := "\")".toList

/-- Lookbehind literal of `CONFIG_SEARCH`. -/
def configL : List Char := "config(".toList

/-- Lookahead literal of `CONFIG_SEARCH`. -/
def configR : List Char := ")".toList

/-- `ModelParser.REQUIRED_CONFIGS`: the text `schema=...` built from the
customer and the file stem (with single quotes around both values). -/
def REQUIRED_CONFIGS (customer stem : List Char) : List Char :=
  "schema='".toList ++ customer ++ "', alias='".toList ++ stem ++ ['\'']

/-- `ModelParser._prefix_customer`: replacement callback for the two ref
patterns. -/
def prefix_customer (customer m : List Char) : List Char :=
  customer ++ '_' :: m

/-- `ModelParser._append_required_configs`: replacement callback for
`CONFIG_SEARCH`. -/
def append_required_configs (customer stem m : List Char) : List Char :=
  m ++ ", ".toList ++ REQUIRED_CONFIGS customer stem

/-- `ModelParser._modify_refs`: substitute the single-quote pattern, then
the double-quote pattern. -/
def modify_refs (customer sql : List Char) : List Char :=
  reSub refDoubleL false refDoubleR (prefix_customer customer)
    (reSub refSingleL false refSingleR (prefix_customer customer) sql)

/-- `ModelParser._modify_config`: substitute on every `CONFIG_SEARCH`
match, then prepend a full config call unless the required text already
occurs somewhere in the result. -/
def modify_config (customer stem sql : List Char) : List Char :=
  let sql' := reSub configL true configR (append_required_configs customer stem) sql
  if containsSub (REQUIRED_CONFIGS customer stem) sql' then sql'
  else "\x7b\x7b config(".toList ++ REQUIRED_CONFIGS customer stem ++ ") \x7d\x7d\n\n".toList ++ sql'

/-- `ModelParser.file_contents`: the whole Source transformer (config
enforcement, then reference rewriting). -/
def model_file_contents (customer stem sql : List Char) : List Char :=
  modify_refs customer (modify_config customer stem sql)

/-! ### Decompositions of a subject string for one lookaround pass

A `PChunk` is a piece of the subject: `act t` is a designated match site
`L ++ t ++ R` whose interior `t` the pass rewrites, `inert s` is text the
pass leaves alone.  The side conditions `InertOK` / `ActOK` say that the
decomposition is honest: `L` never matches inside an inert piece, at a
junction, or inside an interior. -/

inductive PChunk
  | inert (s : List Char)
  | act (t : List Char)

/-- Render one chunk back to subject text for the pass `(L, R)`. -/
def prender (L R : List Char) : PChunk → List Char
  | .inert s => s
  | .act t => L ++ t ++ R

/-- Render a chunk list back to subject text. -/
def prenders (L R : List Char) : List PChunk → List Char
  | [] => []
  | c :: cs => prender L R c ++ prenders L R cs

/-- Apply the pass's replacement function to every match site. -/
def rwPChunk (f : List Char → List Char) : PChunk → PChunk
  | .inert s => .inert s
  | .act t => .act (f t)

/-- No nonempty prefix of `L` is a suffix of `X` (so a match window can
never straddle the right edge of `X`). -/
abbrev ProperTail (L X : List Char) : Prop :=
  ∀ n ∈ List.range (L.length + 1), 0 < n → ¬ (L.take n) <:+ X

/-- Honesty of an inert chunk: `L` does not occur in it and no match
window can straddle out of it. -/
abbrev InertOK (L s : List Char) : Prop :=
  ¬ L <:+: s ∧ ProperTail L s

/-- Honesty of a match site with interior `t`. -/
def ActOK (L : List Char) (nl : Bool) (R : List Char) (t : List Char) : Prop :=
  t ≠ [] ∧
  (∀ t2 rest, t2 <:+ t → t2 ≠ [] → ¬ R <+: (t2 ++ R ++ rest)) ∧
  (nl = true ∨ '\n' ∉ t) ∧
  (∀ j, j < R.length → ¬ L <:+ (L ++ t ++ R.take j)) ∧
  ProperTail L (L ++ t ++ R)

/-- Honesty of a chunk for the pass `(L, nl, R)`. -/
def PChunkOK (L : List Char) (nl : Bool) (R : List Char) : PChunk → Prop
  | .inert s => InertOK L s
  | .act t => ActOK L nl R t

/-! ### Decompositions for the two reference passes together (claim C2) -/

/-- A piece of model source text: plain text, a single-quoted reference
call, or a double-quoted reference call. -/
inductive RChunk
  | plain (s : List Char)
  | refS (t : List Char)
  | refD (t : List Char)

/-- Render one `RChunk` to source text. -/
def rrender : RChunk → List Char
  | .plain s => s
  | .refS t => refSingleL ++ t ++ refSingleR
  | .refD t => refDoubleL ++ t ++ refDoubleR

/-- Render a list of `RChunk`s to source text. -/
def rrenders : List RChunk → List Char
  | [] => []
  | c :: cs => rrender c ++ rrenders cs

/-- Rewrite every reference target with the customer prefix. -/
def rwRefs (customer : List Char) : RChunk → RChunk
  | .plain s => .plain s
  | .refS t => .refS (prefix_customer customer t)
  | .refD t => .refD (prefix_customer customer t)

/-- A reference target as the script expects it: a nonempty literal with
no quotes, parentheses or newline. -/
abbrev cleanTok (t : List Char) : Prop :=
  t ≠ [] ∧ ∀ c ∈ t, c ∉ ['\'', '"', '\n', '(', ')']

/-- Plain text between reference calls: neither reference opener occurs
in it, and it does not end in a proper prefix of either opener. -/
abbrev plainOK (s : List Char) : Prop :=
  ¬ refSingleL <:+: s ∧ ¬ refDoubleL <:+: s ∧
    ProperTail refSingleL s ∧ ProperTail refDoubleL s

/-- Honesty of an `RChunk`. -/
abbrev rchunkOK : RChunk → Prop
  | .plain s => plainOK s
  | .refS t => cleanTok t
  | .refD t => cleanTok t

/-- View of an `RChunk` list for the single-quote pass: `refS` sites are
active, everything else is inert. -/
def toSinglePass : RChunk → PChunk
  | .plain s => .inert s
  | .refS t => .act t
  | .refD t => .inert (refDoubleL ++ t ++ refDoubleR)

/-- View of an `RChunk` list for the double-quote pass. -/
def toDoublePass : RChunk → PChunk
  | .plain s => .inert s
  | .refS t => .inert (refSingleL ++ t ++ refSingleR)
  | .refD t => .act t

/-- The effect of the single-quote pass on a chunk. -/
def rwRefSingle (customer : List Char) : RChunk → RChunk
  | .plain s => .plain s
  | .refS t => .refS (prefix_customer customer t)
  | .refD t => .refD t

/-- The effect of the double-quote pass on a chunk. -/
def rwRefDouble (customer : List Char) : RChunk → RChunk
  | .plain s => .plain s
  | .refS t => .refS t
  | .refD t => .refD (prefix_customer customer t)

/-! ### SchemaParser (`scripts/clone_project.py`, class `SchemaParser`)

A parsed structured document is a string-keyed ordered mapping whose
top-level keys of interest map to lists of entries, and each entry is a
string-keyed ordered mapping.  Only the string-valued fields the script
reads or writes (an entry's `name` and `schema`) are modelled; keyed
assignment follows Python dict semantics (replace in place if the key is
present, append otherwise). -/

/-- One entry of a `models`/`seeds`/`snapshots`/`sources` list. -/
abbrev Item : Type := List (String × List Char)

instance : DecidableEq Item := instDecidableEqList

/-- Python `d[k]` as an `Option` (first occurrence wins, as in a dict). -/
def assocGet {α : Type} (k : String) : List (String × α) → Option α
  | [] => none
  | (k', v) :: t => if k' = k then some v else assocGet k t

/-- Python `d[k] = v`: replace in place, else append. -/
def assocSet {α : Type} (k : String) (v : α) :
    List (String × α) → List (String × α)
  | [] => [(k, v)]
  | (k', v') :: t => if k' = k then (k', v) :: t else (k', v') :: assocSet k v t

/-- A parsed schema document: top-level keys to entry lists. -/
abbrev SchemaDoc : Type := List (String × List Item)

instance : DecidableEq SchemaDoc := instDecidableEqList

/-- The model-like keys iterated by `_modify_yml_for_models`. -/
def modelKeys : List String := ["models", "seeds", "snapshots"]

/-- Early-exit map over a list, mirroring the Python loop that stops at
the first `KeyError`. -/
def mapMopt {α β : Type} (f : α → Option β) : List α → Option (List β)
  | [] => some []
  | a :: l =>
    match f a, mapMopt f l with
    | some b, some l' => some (b :: l')
    | _, _ => none

/-- `item['name'] = f"{customer}_{item['name']}"`; `none` models the
`KeyError` Python raises when the entry has no `name`. -/
def modify_item_name (customer : List Char) (item : Item) : Option Item :=
  match assocGet "name" item with
  | none => none
  | some nm => some (assocSet "name" (prefix_customer customer nm) item)

/-- One iteration of the `for key in ['models', 'seeds', 'snapshots']`
loop: if the key is present, rename every entry of its list. -/
def modify_key (customer : List Char) (key : String) (d : SchemaDoc) : Option SchemaDoc :=
  match assocGet key d with
  | none => some d
  | some items =>
    (mapMopt (modify_item_name customer) items).map fun its => assocSet key its d

/-- `SchemaParser._modify_yml_for_models`, value-level: the loop body for
the three model-like keys, in order. -/
def modify_yml_for_models (customer : List Char) (data : SchemaDoc) : Option SchemaDoc :=
  (modify_key customer "models" data).bind fun d1 =>
    (modify_key customer "seeds" d1).bind fun d2 =>
      modify_key customer "snapshots" d2

/-- `SchemaParser._modify_yml_for_sources`, value-level: overwrite every
source entry's `schema` with the customer. -/
def modify_yml_for_sources (customer : List Char) (data : SchemaDoc) : SchemaDoc :=
  match assocGet "sources" data with
  | none => data
  | some sources => assocSet "sources" (sources.map (assocSet "schema" customer)) data

/-- `SchemaParser.file_contents`, value-level: the guards and the two
rewrites, in the script's order. -/
def schema_file_contents (customer : List Char) (data : SchemaDoc) : Option SchemaDoc :=
  (if modelKeys.any fun k => (assocGet k data).isSome
   then modify_yml_for_models customer data
   else some data).bind fun d1 =>
    some (if (assocGet "sources" d1).isSome then modify_yml_for_sources customer d1 else d1)

/-! ### SchemaParser with an explicit store (claim C7)

The script mutates the parsed document in place (`item['name'] = ...`,
`source['schema'] = ...`) and returns the same object.  To talk about
that, the same code is embedded again with the entry dicts held in an
explicit store: a document holds store indices, and each in-place
assignment becomes an update of the store at that index. -/

/-- A document whose entry lists hold store indices instead of values. -/
abbrev HDoc : Type := List (String × List Nat)

/-- `item['name'] = f"{customer}_{item['name']}"` as a store update at
index `r`. -/
def hmodify_item_at (customer : List Char) (st : List Item) (r : Nat) : Option (List Item) :=
  match st.get? r with
  | none => none
  | some item =>
    match assocGet "name" item with
    | none => none
    | some nm => some (st.set r (assocSet "name" (prefix_customer customer nm) item))

/-- `_modify_yml_for_models` over the store. -/
def hmodify_yml_for_models (customer : List Char) (d : HDoc) (st : List Item) :
    Option (List Item) :=
  modelKeys.foldlM
    (fun st key =>
      match assocGet key d with
      | none => some st
      | some refs => refs.foldlM (hmodify_item_at customer) st)
    st

/-- `_modify_yml_for_sources` over the store. -/
def hmodify_yml_for_sources (customer : List Char) (d : HDoc) (st : List Item) :
    Option (List Item) :=
  match assocGet "sources" d with
  | none => some st
  | some refs =>
    refs.foldlM
      (fun st r =>
        match st.get? r with
        | none => none
        | some item => some (st.set r (assocSet "schema" customer item)))
      st

/-- `SchemaParser.file_contents` over the store.  The returned document
is `d` itself: the script returns the very `data` object it mutated. -/
def hschema_file_contents (customer : List Char) (d : HDoc) (st : List Item) :
    Option (HDoc × List Item) :=
  (if modelKeys.any fun k => (assocGet k d).isSome
   then hmodify_yml_for_models customer d st
   else some st).bind fun st1 =>
    (if (assocGet "sources" d).isSome then hmodify_yml_for_sources customer d st1
     else some st1).bind fun st2 =>
      some (d, st2)

/-! ### ParseDirectory.run dispatch and FileParser naming -/

/-- Which parser class `ParseDirectory.run` picks for a file. -/
inductive ParserTag
  | modelTag
  | macroTag
  | schemaTag
  | docTag

/-- The classification in `ParseDirectory.run`: the selected parser (if
any) and whether the skip notice was printed.  Mirrors the `if`/`elif`
chain on the file suffix and the directory. -/
def parse_directory_classify (suffix directory : String) : Option ParserTag × Bool :=
  if suffix = ".sql" then
    (if directory ∈ ["models", "seeds", "snapshots"] then (some .modelTag, false)
     else if directory = "macros" then (some .macroTag, false)
     else (none, false))
  else if suffix = ".yml" then (some .schemaTag, false)
  else if suffix = ".yaml" then (some .schemaTag, false)
  else if suffix = ".md" then (some .docTag, false)
  else (none, true)

/-- Number of output files the run step writes for one input file: one
when a parser was selected (`parser(...).run()`), none otherwise. -/
def files_written : Option ParserTag → Nat
  | some _ => 1
  | none => 0

/-- `FileParser.file_name`: `f'{customer}_{file.name}'`. -/
def fileParser_file_name (customer name : List Char) : List Char :=
  customer ++ '_' :: name

/-! ### Concrete inputs used by witnesses and counterexamples -/

/-- Witness document for the structured rewrite: one model and one source. -/
def exDoc : SchemaDoc :=
  [("models", [[("name", "orders".toList)]]),
   ("sources", [[("name", "raw_orders".toList), ("schema", "landing".toList)]])]

/-- The transformed witness document. -/
def exDocOut : SchemaDoc :=
  [("models", [[("name", "acme_orders".toList)]]),
   ("sources", [[("name", "raw_orders".toList), ("schema", "acme".toList)]])]

/-- Indexed witness document for the store-level transform. -/
def exHDoc : HDoc := [("models", [0])]

/-- Witness store before the transform. -/
def exStore : List Item := [[("name", "orders".toList)]]

/-- Witness store after the transform. -/
def exStoreOut : List Item := [[("name", "acme_orders".toList)]]

/-! ## Basic facts about the scan -/

theorem lazyUpto_append {nl : Bool} {R s i r : List Char}
    (h : lazyUpto nl R s = some (i, r)) : i ++ r = s := by
  induction s generalizing i r with
  | nil =>
    unfold lazyUpto at h
    split at h
    · obtain ⟨rfl, rfl⟩ := by exact Prod.mk.injEq .. ▸ (Option.some.injEq .. ▸ h)
      rfl
    · exact absurd h (by simp)
  | cons c cs ih =>
    unfold lazyUpto at h
    split at h
    · cases h; rfl
    · split at h
      · exact absurd h (by simp)
      · cases hrec : lazyUpto nl R cs with
        | none => rw [hrec] at h; exact absurd h (by simp)
        | some p =>
          obtain ⟨i', r'⟩ := p
          rw [hrec] at h
          cases h
          have := ih hrec
          simp [← this]

theorem lazyUpto_compute {nl : Bool} {R t r : List Char}
    (hR : R ≠ []) (hpre : R <+: r)
    (hmin : ∀ t1 t2, t = t1 ++ t2 → t2 ≠ [] → ¬ R <+: (t2 ++ r))
    (hnl : nl = true ∨ '\n' ∉ t) :
    lazyUpto nl R (t ++ r) = some (t, r) := by
  induction t with
  | nil =>
    cases r with
    | nil => exact absurd (List.prefix_nil.mp hpre) hR
    | cons c cs =>
      show lazyUpto nl R (c :: cs) = some ([], c :: cs)
      unfold lazyUpto
      rw [if_pos ( List.isPrefixOf_iff_prefix.mpr hpre)]
  | cons c t' ih =>
    have hnotpre : ¬ R <+: (c :: t') ++ r := hmin [] (c :: t') rfl (by simp)
    have hstep : lazyUpto nl R (t' ++ r) = some (t', r) := by
      apply ih
      · intro t1 t2 heq hne
        exact hmin (c :: t1) t2 (by simp [heq]) hne
      · rcases hnl with h | h
        · exact Or.inl h
        · exact Or.inr fun hm => h (List.mem_cons_of_mem _ hm)
    show lazyUpto nl R (c :: (t' ++ r)) = some (c :: t', r)
    unfold lazyUpto
    rw [if_neg (by rw [ List.isPrefixOf_iff_prefix]; exact hnotpre)]
    have hc : ¬ (nl = false ∧ c = '\n') := by
      rcases hnl with h | h
      · rintro ⟨h2, -⟩; rw [h] at h2; cases h2
      · rintro ⟨-, rfl⟩; exact h (List.mem_cons_self _ _)
    rw [if_neg hc, hstep]

theorem reSubAux_succ (L : List Char) (nl : Bool) (R : List Char)
    (f : List Char → List Char) (fuel : Nat) (lookRev s : List Char) :
    reSubAux L nl R f (fuel + 1) lookRev s =
      match (if L.reverse.isPrefixOf lookRev then lazyUpto nl R s else none) with
      | some (i, r) =>
        match i with
        | [] =>
          f [] ++
            (match s with
             | [] => []
             | c :: cs => c :: reSubAux L nl R f fuel (c :: lookRev) cs)
        | _ :: _ => f i ++ reSubAux L nl R f fuel (i.reverse ++ lookRev) r
      | none =>
        match s with
        | [] => []
        | c :: cs => c :: reSubAux L nl R f fuel (c :: lookRev) cs := rfl

theorem reSubAux_nil {L : List Char} {nl : Bool} {R : List Char}
    {f : List Char → List Char} {fuel : Nat} {lookRev : List Char}
    (hR : R ≠ []) : reSubAux L nl R f fuel lookRev [] = [] := by
  cases fuel with
  | zero => rfl
  | succ fuel' =>
    have hlz : lazyUpto nl R [] = none := by
      unfold lazyUpto
      rw [if_neg]
      rw [ List.isPrefixOf_iff_prefix]
      exact fun h => hR (List.prefix_nil.mp h)
    have hscr : (if L.reverse.isPrefixOf lookRev then lazyUpto nl R ([] : List Char)
        else none) = none := by
      split
      · exact hlz
      · rfl
    rw [reSubAux_succ, hscr]

theorem reSubAux_congr {L : List Char} {nl : Bool} {R : List Char}
    {f : List Char → List Char} :
    ∀ (f1 : Nat) {f2 : Nat} {lookRev s : List Char},
      s.length < f1 → s.length < f2 →
      reSubAux L nl R f f1 lookRev s = reSubAux L nl R f f2 lookRev s := by
  intro f1
  induction f1 with
  | zero => intro f2 lr s h1 h2; omega
  | succ f1' ih =>
    intro f2 lr s h1 h2
    cases f2 with
    | zero => omega
    | succ f2' =>
      rw [reSubAux_succ, reSubAux_succ]
      cases hM : (if L.reverse.isPrefixOf lr then lazyUpto nl R s else none) with
      | none =>
        cases s with
        | nil => rfl
        | cons c cs =>
          simp only [List.cons.injEq, true_and]
          exact ih (by simp at h1; omega) (by simp at h2; omega)
      | some p =>
        obtain ⟨i, r⟩ := p
        have hlz : lazyUpto nl R s = some (i, r) := by
          by_cases hb : L.reverse.isPrefixOf lr
          · rwa [if_pos hb] at hM
          · rw [if_neg hb] at hM; cases hM
        have hir : i ++ r = s := lazyUpto_append hlz
        cases i with
        | nil =>
          cases s with
          | nil => rfl
          | cons c cs =>
            simp only [List.append_cancel_left_eq, List.cons.injEq, true_and]
            exact ih (by simp at h1; omega) (by simp at h2; omega)
        | cons a i' =>
          simp only [List.append_cancel_left_eq]
          have hrlen : r.length < s.length := by
            rw [← hir]; simp; omega
          exact ih (by omega) (by omega)

theorem reSubAux_skip {L : List Char} {nl : Bool} {R : List Char}
    {f : List Char → List Char} :
    ∀ (A : List Char) {s lookRev : List Char} {fuel : Nat},
      (A ++ s).length < fuel →
      (∀ j, j < A.length → ¬ L <:+ (lookRev.reverse ++ A.take j)) →
      reSubAux L nl R f fuel lookRev (A ++ s) =
        A ++ reSubAux L nl R f fuel (A.reverse ++ lookRev) s := by
  intro A
  induction A with
  | nil => intro s lr fuel h1 h2; simp
  | cons c A' ih =>
    intro s lr fuel h1 h2
    cases fuel with
    | zero => simp at h1
    | succ fuel' =>
      have hlb : L.reverse.isPrefixOf lr = false := by
        rw [← Bool.not_eq_true, List.isPrefixOf_iff_prefix]
        intro h
        apply h2 0 (by simp)
        simp only [List.take_zero, List.append_nil]
        rw [← List.reverse_prefix]
        simpa using h
      have hscr : (if L.reverse.isPrefixOf lr then lazyUpto nl R (c :: (A' ++ s))
          else none) = none := by
        rw [hlb]
        simp
      show reSubAux L nl R f (fuel' + 1) lr (c :: (A' ++ s)) = _
      rw [reSubAux_succ, hscr]
      simp only
      have hstep : reSubAux L nl R f fuel' (c :: lr) (A' ++ s) =
          A' ++ reSubAux L nl R f fuel' (A'.reverse ++ (c :: lr)) s := by
        apply ih
        · simp at h1 ⊢; omega
        · intro j hj
          have := h2 (j + 1) (by simp; omega)
          simpa [List.take_succ_cons, List.append_assoc] using this
      rw [hstep]
      have hfc : reSubAux L nl R f fuel' (A'.reverse ++ (c :: lr)) s =
          reSubAux L nl R f (fuel' + 1) (A'.reverse ++ (c :: lr)) s := by
        apply reSubAux_congr
        · simp at h1; omega
        · simp at h1; omega
      rw [hfc]
      simp [List.append_assoc]

/-! ## Suffix decomposition and `ProperTail` algebra -/

theorem infix_of_suffix_take {L s : List Char} {j : Nat} (hsfx : L <:+ s.take j) :
    L <:+: s := by
  have h1 := List.IsSuffix.isInfix hsfx
  have h2 := List.IsPrefix.isInfix ( List.take_prefix j s)
  exact List.IsInfix.trans h1 h2

theorem suffix_append_cases {L X Y : List Char} (h : L <:+ (X ++ Y)) :
    L <:+ Y ∨ ∃ X', X' ≠ [] ∧ X' <:+ X ∧ L = X' ++ Y := by
  obtain ⟨P, hP⟩ := h
  rw [List.append_eq_append_iff] at hP
  rcases hP with ⟨a', ha1, ha2⟩ | ⟨c', hc1, hc2⟩
  · cases a' with
    | nil => exact Or.inl (by simp at ha2; exact ha2 ▸ List.suffix_refl Y)
    | cons b bs =>
      exact Or.inr ⟨b :: bs, by simp, ⟨P, ha1.symm⟩, ha2⟩
  · exact Or.inl ⟨c', hc2.symm⟩

theorem not_suffix_append {L X Y : List Char}
    (hpt : ProperTail L X) (hY : ¬ L <:+ Y) : ¬ L <:+ (X ++ Y) := by
  intro h
  rcases suffix_append_cases h with h | ⟨X', hne, hsuf, heq⟩
  · exact hY h
  · have hXp : L.take X'.length = X' := by rw [heq, List.take_left]
    have hlen : X'.length ≤ L.length := by
      have := congrArg List.length heq
      simp at this
      omega
    exact hpt X'.length (List.mem_range.mpr (by omega))
      (List.length_pos.mpr hne) (by rw [hXp]; exact hsuf)

theorem properTail_append {L X Y : List Char}
    (h1 : ProperTail L X) (h2 : ProperTail L Y) : ProperTail L (X ++ Y) := by
  intro n hn hpos h
  rcases suffix_append_cases h with h | ⟨X', hne, hsuf, heq⟩
  · exact h2 n hn hpos h
  · have hlen : X'.length ≤ n := by
      have := congrArg List.length heq
      simp at this
      omega
    have hXp : X' = L.take X'.length := by
      have h3 : (X' ++ Y).take X'.length = X' := List.take_left X' Y
      rw [← heq] at h3
      rw [List.take_take, min_eq_left hlen] at h3
      exact h3.symm
    have hnl : X'.length ≤ L.length := by
      rw [List.mem_range] at hn
      omega
    exact h1 X'.length (List.mem_range.mpr (by omega))
      (List.length_pos.mpr hne) (hXp ▸ hsuf)

theorem properTail_nil {L : List Char} (hL : L ≠ []) : ProperTail L [] := by
  intro n hn hpos h
  have h0 : L.take n = [] := List.suffix_nil.mp h
  have := congrArg List.length h0
  simp at this
  rcases this with h | h
  · omega
  · exact hL h

/-! ## The match step and the pass theorem -/

theorem reSubAux_act {L : List Char} {nl : Bool} {R : List Char}
    {f : List Char → List Char} {lookRev t rest : List Char} {fuel : Nat}
    (hR : R ≠ []) (ht : t ≠ [])
    (hfuel : (L ++ (t ++ (R ++ rest))).length < fuel)
    (hlb : ∀ j, j < L.length → ¬ L <:+ (lookRev.reverse ++ L.take j))
    (hmin : ∀ t1 t2, t = t1 ++ t2 → t2 ≠ [] → ¬ R <+: (t2 ++ (R ++ rest)))
    (hnl : nl = true ∨ '\n' ∉ t)
    (hskipR : ∀ j, j < R.length → ¬ L <:+ ((lookRev.reverse ++ (L ++ t)) ++ R.take j)) :
    reSubAux L nl R f fuel lookRev (L ++ (t ++ (R ++ rest))) =
      L ++ (f t ++ (R ++ reSubAux L nl R f fuel (((L ++ t) ++ R).reverse ++ lookRev) rest)) := by
  have hstep1 : reSubAux L nl R f fuel lookRev (L ++ (t ++ (R ++ rest))) =
      L ++ reSubAux L nl R f fuel (L.reverse ++ lookRev) (t ++ (R ++ rest)) :=
    reSubAux_skip L hfuel hlb
  rw [hstep1]
  cases fuel with
  | zero => simp at hfuel
  | succ fu =>
    have hpre : L.reverse.isPrefixOf (L.reverse ++ lookRev) = true :=
      List.isPrefixOf_iff_prefix.mpr (List.prefix_append _ _)
    have hlz : lazyUpto nl R (t ++ (R ++ rest)) = some (t, R ++ rest) :=
      lazyUpto_compute hR (List.prefix_append R rest) hmin hnl
    have hscr : (if L.reverse.isPrefixOf (L.reverse ++ lookRev)
        then lazyUpto nl R (t ++ (R ++ rest)) else none) = some (t, R ++ rest) := by
      rw [hpre]
      simp [hlz]
    rw [reSubAux_succ, hscr]
    cases t with
    | nil => exact absurd rfl ht
    | cons a t' =>
      simp only [List.append_cancel_left_eq]
      have hstep3 : reSubAux L nl R f fu ((a :: t').reverse ++ (L.reverse ++ lookRev))
          (R ++ rest) =
          R ++ reSubAux L nl R f fu (R.reverse ++ ((a :: t').reverse ++ (L.reverse ++ lookRev)))
            rest := by
        apply reSubAux_skip
        · simp at hfuel ⊢
          omega
        · intro j hj
          have hrewr : ((a :: t').reverse ++ (L.reverse ++ lookRev)).reverse =
              lookRev.reverse ++ (L ++ (a :: t')) := by
            simp [List.reverse_append, List.append_assoc]
          rw [hrewr]
          have := hskipR j hj
          simpa [List.append_assoc] using this
      rw [hstep3]
      have hfc : reSubAux L nl R f fu
          (R.reverse ++ ((a :: t').reverse ++ (L.reverse ++ lookRev))) rest =
          reSubAux L nl R f (fu + 1)
            (((L ++ a :: t') ++ R).reverse ++ lookRev) rest := by
        have harr : R.reverse ++ ((a :: t').reverse ++ (L.reverse ++ lookRev)) =
            ((L ++ a :: t') ++ R).reverse ++ lookRev := by
          simp [List.reverse_append, List.append_assoc]
        rw [harr]
        apply reSubAux_congr
        · simp at hfuel ⊢
          omega
        · simp at hfuel ⊢
          omega
      rw [hfc]

theorem reSubAux_chunks {L : List Char} {nl : Bool} {R : List Char}
    {f : List Char → List Char} (hR : R ≠ []) :
    ∀ (cs : List PChunk) {lookRev : List Char} {fuel : Nat},
      (prenders L R cs).length < fuel →
      (∀ c ∈ cs, PChunkOK L nl R c) →
      ProperTail L lookRev.reverse →
      reSubAux L nl R f fuel lookRev (prenders L R cs) =
        prenders L R (cs.map (rwPChunk f)) := by
  intro cs
  induction cs with
  | nil => intro lr fuel h1 h2 hpt; exact reSubAux_nil hR
  | cons chunk cs' ih =>
    intro lr fuel h1 h2 hpt
    cases chunk with
    | inert s =>
      have hok : InertOK L s := h2 (.inert s) (by simp)
      obtain ⟨hni, hptS⟩ := hok
      show reSubAux L nl R f fuel lr (s ++ prenders L R cs') =
        s ++ prenders L R (cs'.map (rwPChunk f))
      have hskip : reSubAux L nl R f fuel lr (s ++ prenders L R cs') =
          s ++ reSubAux L nl R f fuel (s.reverse ++ lr) (prenders L R cs') := by
        apply reSubAux_skip
        · simpa [prenders] using h1
        · intro j hj
          apply not_suffix_append hpt
          intro hsfx
          exact hni (infix_of_suffix_take hsfx)
      rw [hskip]
      congr 1
      apply ih
      · simp [prenders, prender] at h1
        omega
      · intro c hc; exact h2 c (by simp [hc])
      · rw [List.reverse_append, List.reverse_reverse]
        exact properTail_append hpt hptS
    | act t =>
      have hok : ActOK L nl R t := h2 (.act t) (by simp)
      obtain ⟨ht, hmin, hnl, hskipJ, hptT⟩ := hok
      show reSubAux L nl R f fuel lr ((L ++ t ++ R) ++ prenders L R cs') =
        (L ++ f t ++ R) ++ prenders L R (cs'.map (rwPChunk f))
      have hre : (L ++ t ++ R) ++ prenders L R cs' =
          L ++ (t ++ (R ++ prenders L R cs')) := by
        simp [List.append_assoc]
      rw [hre]
      have hact := @reSubAux_act L nl R f lr t (prenders L R cs') fuel hR ht
        (by simp only [prenders, prender] at h1; simp at h1 ⊢; omega)
        (by
          intro j hj
          apply not_suffix_append hpt
          intro hsfx
          have hlen := hsfx.length_le
          simp [List.length_take] at hlen
          omega)
        (by
          intro t1 t2 heq hne
          have := hmin t2 (prenders L R cs') ⟨t1, heq.symm⟩ hne
          simpa [List.append_assoc] using this)
        hnl
        (by
          intro j hj
          rw [List.append_assoc]
          apply not_suffix_append hpt
          have := hskipJ j hj
          simpa [List.append_assoc] using this)
      rw [hact]
      have hcont : reSubAux L nl R f fuel (((L ++ t) ++ R).reverse ++ lr)
          (prenders L R cs') = prenders L R (cs'.map (rwPChunk f)) := by
        apply ih
        · simp [prenders, prender] at h1
          omega
        · intro c hc; exact h2 c (by simp [hc])
        · rw [List.reverse_append, List.reverse_reverse]
          apply properTail_append hpt
          simpa [List.append_assoc] using hptT
      rw [hcont]
      simp [List.append_assoc]

/-! ## Discharging the chunk conditions for the three concrete passes -/

theorem suffix_getLast? {u v : List Char} (h : u <:+ v) (hu : u ≠ []) :
    u.getLast? = v.getLast? := by
  obtain ⟨w, rfl⟩ := h
  exact (List.getLast?_append_of_ne_nil w hu).symm

theorem getLast?_mem {l : List Char} {a : Char} (h : l.getLast? = some a) : a ∈ l := by
  have hne : l ≠ [] := by rintro rfl; simp at h
  rw [List.getLast?_eq_getLast _ hne] at h
  have h2 : l.getLast hne = a := by injection h
  exact h2 ▸ List.getLast_mem hne

theorem not_infix_of_mem_not_mem {L X : List Char} {c : Char}
    (h1 : c ∈ L) (h2 : c ∉ X) : ¬ L <:+: X :=
  fun h => h2 (h.subset h1)

theorem properTail_concat {L Y : List Char} {a : Char}
    (h : ∀ n ∈ List.range (L.length + 1), 0 < n → (L.take n).getLast? ≠ some a) :
    ProperTail L (Y ++ [a]) := by
  intro n hn hpos hsfx
  have hne : L.take n ≠ [] := by
    intro h0
    have := congrArg List.length h0
    rw [List.mem_range] at hn
    simp at this
    rcases this with h | h
    · omega
    · subst h
      simp [List.mem_range] at hn
      omega
  have := suffix_getLast? hsfx hne
  rw [List.getLast?_append_of_ne_nil Y (by simp)] at this
  simp at this
  exact h n hn hpos (by rw [this])

theorem cleanTok_prepend {customer t : List Char}
    (hc : cleanTok customer) (ht : cleanTok t) :
    cleanTok (prefix_customer customer t) := by
  obtain ⟨hc1, hc2⟩ := hc
  obtain ⟨ht1, ht2⟩ := ht
  constructor
  · simp [prefix_customer]
  · intro c hm
    simp only [prefix_customer, List.mem_append, List.mem_cons] at hm
    rcases hm with h | h | h
    · exact hc2 c h
    · subst h; decide
    · exact ht2 c h

theorem actOK_refSingle {t : List Char} (h : cleanTok t) :
    ActOK refSingleL false refSingleR t := by
  obtain ⟨ht, hch⟩ := h
  refine ⟨ht, ?_, Or.inr fun hm => by have := hch _ hm; simp at this, ?_, ?_⟩
  · intro t2 rest hsfx hne hp
    cases t2 with
    | nil => exact hne rfl
    | cons c t2' =>
      have : refSingleR = '\'' :: [')'] := rfl
      rw [this] at hp
      simp only [List.cons_append, List.append_assoc] at hp
      rw [List.cons_prefix_cons] at hp
      have hcm : c ∈ t := hsfx.subset (List.mem_cons_self c t2')
      have := hch c hcm
      rw [← hp.1] at this
      simp at this
  · intro j hj
    have hRlen : refSingleR.length = 2 := rfl
    rw [hRlen] at hj
    interval_cases j
    · intro hsfx
      simp only [List.take_zero, List.append_nil] at hsfx
      have := suffix_getLast? hsfx (by decide)
      rw [List.getLast?_append_of_ne_nil refSingleL ht] at this
      have h1 : refSingleL.getLast? = some '\'' := rfl
      rw [h1] at this
      have := getLast?_mem this.symm
      have := hch _ this
      simp at this
    · intro hsfx
      have hre : refSingleL ++ t ++ refSingleR.take 1 =
          (refSingleL ++ t) ++ ['\''] := by rfl
      rw [hre] at hsfx
      rw [← List.reverse_prefix] at hsfx
      obtain ⟨t0, a, rfl⟩ : ∃ t0 a, t = t0 ++ [a] := by
        rcases t.eq_nil_or_concat' with h | ⟨t0, a, h⟩
        · exact absurd h ht
        · exact ⟨t0, a, h⟩
      have hrw : ((refSingleL ++ (t0 ++ [a])) ++ ['\'']).reverse =
          '\'' :: a :: (t0.reverse ++ refSingleL.reverse) := by
        simp
      rw [hrw] at hsfx
      have hLrev : refSingleL.reverse = '\'' :: '(' :: ['f', 'e', 'r'] := rfl
      rw [hLrev, List.cons_prefix_cons] at hsfx
      rw [List.cons_prefix_cons] at hsfx
      have ha : a ∈ t0 ++ [a] := by simp
      have := hch a ha
      rw [← hsfx.2.1] at this
      simp at this
  · have hre : refSingleL ++ t ++ refSingleR =
        (refSingleL ++ t ++ ['\'']) ++ [')'] := by
      have : refSingleR = ['\''] ++ [')'] := rfl
      rw [this, ← List.append_assoc]
    rw [hre]
    exact properTail_concat (by decide)

theorem inertOK_refD_single {t : List Char} (h : cleanTok t) :
    InertOK refSingleL (refDoubleL ++ t ++ refDoubleR) := by
  obtain ⟨ht, hch⟩ := h
  constructor
  · apply not_infix_of_mem_not_mem (show ('\'' : Char) ∈ refSingleL by decide)
    intro hm
    simp only [List.mem_append] at hm
    rcases hm with (h | h) | h
    · simp [refDoubleL] at h
    · have := hch _ h; simp at this
    · simp [refDoubleR] at h
  · have hre : refDoubleL ++ t ++ refDoubleR =
        (refDoubleL ++ t ++ ['"']) ++ [')'] := by
      have : refDoubleR = ['"'] ++ [')'] := rfl
      rw [this, ← List.append_assoc]
    rw [hre]
    exact properTail_concat (by decide)

theorem actOK_refDouble {t : List Char} (h : cleanTok t) :
    ActOK refDoubleL false refDoubleR t := by
  obtain ⟨ht, hch⟩ := h
  refine ⟨ht, ?_, Or.inr fun hm => by have := hch _ hm; simp at this, ?_, ?_⟩
  · intro t2 rest hsfx hne hp
    cases t2 with
    | nil => exact hne rfl
    | cons c t2' =>
      have : refDoubleR = '"' :: [')'] := rfl
      rw [this] at hp
      simp only [List.cons_append, List.append_assoc] at hp
      rw [List.cons_prefix_cons] at hp
      have hcm : c ∈ t := hsfx.subset (List.mem_cons_self c t2')
      have := hch c hcm
      rw [← hp.1] at this
      simp at this
  · intro j hj
    have hRlen : refDoubleR.length = 2 := rfl
    rw [hRlen] at hj
    interval_cases j
    · intro hsfx
      simp only [List.take_zero, List.append_nil] at hsfx
      have := suffix_getLast? hsfx (by decide)
      rw [List.getLast?_append_of_ne_nil refDoubleL ht] at this
      have h1 : refDoubleL.getLast? = some '"' := rfl
      rw [h1] at this
      have := getLast?_mem this.symm
      have := hch _ this
      simp at this
    · intro hsfx
      have hre : refDoubleL ++ t ++ refDoubleR.take 1 =
          (refDoubleL ++ t) ++ ['"'] := by rfl
      rw [hre] at hsfx
      rw [← List.reverse_prefix] at hsfx
      obtain ⟨t0, a, rfl⟩ : ∃ t0 a, t = t0 ++ [a] := by
        rcases t.eq_nil_or_concat' with h | ⟨t0, a, h⟩
        · exact absurd h ht
        · exact ⟨t0, a, h⟩
      have hrw : ((refDoubleL ++ (t0 ++ [a])) ++ ['"']).reverse =
          '"' :: a :: (t0.reverse ++ refDoubleL.reverse) := by
        simp
      rw [hrw] at hsfx
      have hLrev : refDoubleL.reverse = '"' :: '(' :: ['f', 'e', 'r'] := rfl
      rw [hLrev, List.cons_prefix_cons] at hsfx
      rw [List.cons_prefix_cons] at hsfx
      have ha : a ∈ t0 ++ [a] := by simp
      have := hch a ha
      rw [← hsfx.2.1] at this
      simp at this
  · have hre : refDoubleL ++ t ++ refDoubleR =
        (refDoubleL ++ t ++ ['"']) ++ [')'] := by
      have : refDoubleR = ['"'] ++ [')'] := rfl
      rw [this, ← List.append_assoc]
    rw [hre]
    exact properTail_concat (by decide)

theorem inertOK_refS_double {t : List Char} (h : cleanTok t) :
    InertOK refDoubleL (refSingleL ++ t ++ refSingleR) := by
  obtain ⟨ht, hch⟩ := h
  constructor
  · apply not_infix_of_mem_not_mem (show ('"' : Char) ∈ refDoubleL by decide)
    intro hm
    simp only [List.mem_append] at hm
    rcases hm with (h | h) | h
    · simp [refSingleL] at h
    · have := hch _ h; simp at this
    · simp [refSingleR] at h
  · have hre : refSingleL ++ t ++ refSingleR =
        (refSingleL ++ t ++ ['\'']) ++ [')'] := by
      have : refSingleR = ['\''] ++ [')'] := rfl
      rw [this, ← List.append_assoc]
    rw [hre]
    exact properTail_concat (by decide)

/-! ## Putting the two reference passes together -/

theorem prenders_toSingle (cs : List RChunk) :
    prenders refSingleL refSingleR (cs.map toSinglePass) = rrenders cs := by
  induction cs with
  | nil => rfl
  | cons c cs' ih =>
    cases c <;> simp [prenders, prender, rrenders, rrender, toSinglePass, ih]

theorem prenders_toDouble (cs : List RChunk) :
    prenders refDoubleL refDoubleR (cs.map toDoublePass) = rrenders cs := by
  induction cs with
  | nil => rfl
  | cons c cs' ih =>
    cases c <;> simp [prenders, prender, rrenders, rrender, toDoublePass, ih]

theorem rw_toSingle (customer : List Char) (c : RChunk) :
    rwPChunk (prefix_customer customer) (toSinglePass c) =
      toSinglePass (rwRefSingle customer c) := by
  cases c <;> rfl

theorem rw_toDouble (customer : List Char) (c : RChunk) :
    rwPChunk (prefix_customer customer) (toDoublePass c) =
      toDoublePass (rwRefDouble customer c) := by
  cases c <;> rfl

theorem rwRefs_eq (customer : List Char) (c : RChunk) :
    rwRefDouble customer (rwRefSingle customer c) = rwRefs customer c := by
  cases c <;> rfl

theorem rchunkOK_rwSingle {customer : List Char} {c : RChunk}
    (hc : cleanTok customer) (h : rchunkOK c) : rchunkOK (rwRefSingle customer c) := by
  cases c with
  | plain s => exact h
  | refS t => exact cleanTok_prepend hc h
  | refD t => exact h

theorem modify_refs_chunks (customer : List Char) (cs : List RChunk)
    (hc : cleanTok customer) (h : ∀ c ∈ cs, rchunkOK c) :
    modify_refs customer (rrenders cs) = rrenders (cs.map (rwRefs customer)) := by
  have hok1 : ∀ c ∈ cs.map toSinglePass, PChunkOK refSingleL false refSingleR c := by
    intro c hm
    rw [List.mem_map] at hm
    obtain ⟨r, hr, rfl⟩ := hm
    have hok := h r hr
    cases r with
    | plain s => exact (⟨hok.1, hok.2.2.1⟩ : InertOK refSingleL s)
    | refS t => exact actOK_refSingle hok
    | refD t => exact inertOK_refD_single hok
  have hpass1 : reSub refSingleL false refSingleR (prefix_customer customer)
      (rrenders cs) = rrenders (cs.map (rwRefSingle customer)) := by
    rw [reSub]
    rw [show rrenders cs = prenders refSingleL refSingleR (cs.map toSinglePass) from
      (prenders_toSingle cs).symm]
    rw [reSubAux_chunks (by decide) (cs.map toSinglePass) (Nat.lt_succ_self _) hok1
      (by simpa using properTail_nil (by decide))]
    have hmap : (cs.map toSinglePass).map (rwPChunk (prefix_customer customer)) =
        (cs.map (rwRefSingle customer)).map toSinglePass := by
      rw [List.map_map, List.map_map]
      apply List.map_congr_left
      intro a _
      exact rw_toSingle customer a
    rw [hmap, prenders_toSingle]
  have h2 : ∀ c ∈ cs.map (rwRefSingle customer), rchunkOK c := by
    intro c hm
    rw [List.mem_map] at hm
    obtain ⟨r, hr, rfl⟩ := hm
    exact rchunkOK_rwSingle hc (h r hr)
  have hok2 : ∀ c ∈ (cs.map (rwRefSingle customer)).map toDoublePass,
      PChunkOK refDoubleL false refDoubleR c := by
    intro c hm
    rw [List.mem_map] at hm
    obtain ⟨r, hr, rfl⟩ := hm
    have hok := h2 r hr
    cases r with
    | plain s => exact (⟨hok.2.1, hok.2.2.2⟩ : InertOK refDoubleL s)
    | refS t => exact inertOK_refS_double hok
    | refD t => exact actOK_refDouble hok
  have hpass2 : reSub refDoubleL false refDoubleR (prefix_customer customer)
      (rrenders (cs.map (rwRefSingle customer))) =
      rrenders ((cs.map (rwRefSingle customer)).map (rwRefDouble customer)) := by
    rw [reSub]
    rw [show rrenders (cs.map (rwRefSingle customer)) =
        prenders refDoubleL refDoubleR ((cs.map (rwRefSingle customer)).map toDoublePass) from
      (prenders_toDouble _).symm]
    rw [reSubAux_chunks (by decide) ((cs.map (rwRefSingle customer)).map toDoublePass)
      (Nat.lt_succ_self _) hok2 (by simpa using properTail_nil (by decide))]
    have hmap : ∀ l : List RChunk, (l.map toDoublePass).map
        (rwPChunk (prefix_customer customer)) =
        (l.map (rwRefDouble customer)).map toDoublePass := by
      intro l
      rw [List.map_map, List.map_map]
      apply List.map_congr_left
      intro a _
      exact rw_toDouble customer a
    rw [hmap, prenders_toDouble]
  show reSub refDoubleL false refDoubleR (prefix_customer customer)
      (reSub refSingleL false refSingleR (prefix_customer customer) (rrenders cs)) = _
  rw [hpass1, hpass2]
  congr 1
  rw [List.map_map]
  apply List.map_congr_left
  intro a _
  exact rwRefs_eq customer a

/-! ## The configuration pass -/

theorem containsSub_iff_occurs (pat s : List Char) :
    containsSub pat s = true ↔ pat <:+: s := by
  induction s with
  | nil =>
    show pat.isPrefixOf [] = true ↔ _
    rw [ List.isPrefixOf_iff_prefix]
    constructor
    · intro h
      rw [List.prefix_nil.mp h]
    · intro h
      rw [List.eq_nil_of_infix_nil h]
  | cons c t ih =>
    show (pat.isPrefixOf (c :: t) || containsSub pat t) = true ↔ _
    rw [Bool.or_eq_true, List.isPrefixOf_iff_prefix, ih, List.infix_cons_iff]

theorem reSub_id_of_no_opener {L : List Char} {nl : Bool} {R : List Char}
    {f : List Char → List Char} {s : List Char}
    (hR : R ≠ []) (h : ¬ L <:+: s) : reSub L nl R f s = s := by
  rw [reSub]
  have h2 : reSubAux L nl R f (s.length + 1) [] (s ++ []) =
      s ++ reSubAux L nl R f (s.length + 1) (s.reverse ++ []) [] := by
    apply reSubAux_skip
    · simp
    · intro j hj
      simp only [List.reverse_nil, List.nil_append]
      intro hsfx
      exact h (infix_of_suffix_take hsfx)
  simp only [List.append_nil] at h2
  rw [h2, reSubAux_nil hR]
  simp

theorem actOK_config {t : List Char} (h1 : t ≠ []) (h2 : '(' ∉ t) (h3 : ')' ∉ t) :
    ActOK configL true configR t := by
  refine ⟨h1, ?_, Or.inl rfl, ?_, ?_⟩
  · intro t2 rest hsfx hne hp
    cases t2 with
    | nil => exact hne rfl
    | cons c t2' =>
      have hc : configR = ')' :: [] := rfl
      rw [hc] at hp
      simp only [List.cons_append, List.append_assoc] at hp
      rw [List.cons_prefix_cons] at hp
      have hcm : c ∈ t := hsfx.subset (List.mem_cons_self c t2')
      rw [← hp.1] at hcm
      exact h3 hcm
  · intro j hj
    have hc : configR.length = 1 := rfl
    rw [hc] at hj
    interval_cases j
    intro hsfx
    simp only [List.take_zero, List.append_nil] at hsfx
    have := suffix_getLast? hsfx (by decide)
    rw [List.getLast?_append_of_ne_nil configL h1] at this
    have hL : configL.getLast? = some '(' := rfl
    rw [hL] at this
    have := getLast?_mem this.symm
    exact h2 this
  · show ProperTail configL ((configL ++ t) ++ [')'])
    exact properTail_concat (by decide)

theorem modify_config_two_sites (customer stem A a1 B a2 C : List Char)
    (hA : InertOK configL A) (hB : InertOK configL B) (hC : InertOK configL C)
    (ha1 : a1 ≠ [] ∧ '(' ∉ a1 ∧ ')' ∉ a1) (ha2 : a2 ≠ [] ∧ '(' ∉ a2 ∧ ')' ∉ a2) :
    modify_config customer stem
      (A ++ (configL ++ a1 ++ configR) ++ B ++ (configL ++ a2 ++ configR) ++ C) =
      A ++ (configL ++ append_required_configs customer stem a1 ++ configR) ++ B ++
        (configL ++ append_required_configs customer stem a2 ++ configR) ++ C := by
  have hok : ∀ c ∈ ([.inert A, .act a1, .inert B, .act a2, .inert C] : List PChunk),
      PChunkOK configL true configR c := by
    intro c hm
    simp only [List.mem_cons, List.not_mem_nil, or_false] at hm
    rcases hm with rfl | rfl | rfl | rfl | rfl
    · exact hA
    · exact actOK_config ha1.1 ha1.2.1 ha1.2.2
    · exact hB
    · exact actOK_config ha2.1 ha2.2.1 ha2.2.2
    · exact hC
  have hrender : A ++ (configL ++ a1 ++ configR) ++ B ++ (configL ++ a2 ++ configR) ++ C =
      prenders configL configR [.inert A, .act a1, .inert B, .act a2, .inert C] := by
    simp [prenders, prender, List.append_assoc]
  have hsub : reSub configL true configR (append_required_configs customer stem)
      (A ++ (configL ++ a1 ++ configR) ++ B ++ (configL ++ a2 ++ configR) ++ C) =
      A ++ (configL ++ append_required_configs customer stem a1 ++ configR) ++ B ++
        (configL ++ append_required_configs customer stem a2 ++ configR) ++ C := by
    rw [hrender, reSub]
    rw [reSubAux_chunks (by decide) _ (Nat.lt_succ_self _) hok
      (by simpa using properTail_nil (by decide))]
    simp [prenders, prender, rwPChunk, List.append_assoc]
  rw [modify_config]
  simp only [hsub]
  rw [if_pos]
  rw [containsSub_iff_occurs]
  exact ⟨A ++ configL ++ a1 ++ ", ".toList,
    configR ++ B ++ (configL ++ append_required_configs customer stem a2 ++ configR) ++ C, by
      simp [append_required_configs, List.append_assoc]⟩

theorem modify_config_prepends (customer stem s : List Char)
    (h1 : ¬ configL <:+: s)
    (h2 : containsSub (REQUIRED_CONFIGS customer stem) s = false) :
    modify_config customer stem s =
      "\x7b\x7b config(".toList ++ REQUIRED_CONFIGS customer stem ++
        ") \x7d\x7d\n\n".toList ++ s := by
  have hid : reSub configL true configR (append_required_configs customer stem) s = s :=
    reSub_id_of_no_opener (by decide) h1
  rw [modify_config]
  simp only [hid, h2]
  simp

/-! ## Dictionary and schema-document lemmas -/

theorem assocGet_assocSet_self {α : Type} (k : String) (v : α) (d : List (String × α)) :
    assocGet k (assocSet k v d) = some v := by
  induction d with
  | nil => simp [assocGet, assocSet]
  | cons p t ih =>
    obtain ⟨k', v'⟩ := p
    by_cases h : k' = k
    · simp [assocSet, assocGet, h]
    · simp [assocSet, assocGet, h, ih]

theorem assocGet_assocSet_ne {α : Type} {k1 k2 : String} (h : k1 ≠ k2) (v : α)
    (d : List (String × α)) : assocGet k1 (assocSet k2 v d) = assocGet k1 d := by
  induction d with
  | nil =>
    have h2 : k2 ≠ k1 := fun hh => h hh.symm
    simp [assocGet, assocSet, h2]
  | cons p t ih =>
    obtain ⟨k', v'⟩ := p
    by_cases h2 : k' = k2
    · subst h2
      have h3 : k' ≠ k1 := fun hh => h hh.symm
      simp [assocSet, assocGet, h3]
    · simp [assocSet, assocGet, h2, ih]

theorem mapMopt_length {α β : Type} {f : α → Option β} :
    ∀ {l : List α} {l' : List β}, mapMopt f l = some l' → l'.length = l.length := by
  intro l
  induction l with
  | nil => intro l' h; cases h; rfl
  | cons a t ih =>
    intro l' h
    unfold mapMopt at h
    cases hfa : f a with
    | none => rw [hfa] at h; exact absurd h (by simp)
    | some b =>
      rw [hfa] at h
      cases hrec : mapMopt f t with
      | none => rw [hrec] at h; exact absurd h (by simp)
      | some t' =>
        rw [hrec] at h
        cases h
        simp [ih hrec]

theorem mapMopt_get {α β : Type} {f : α → Option β} :
    ∀ {l : List α} {l' : List β}, mapMopt f l = some l' →
      ∀ i x, l.get? i = some x → ∃ y, l'.get? i = some y ∧ f x = some y := by
  intro l
  induction l with
  | nil => intro l' h i x hx; simp at hx
  | cons a t ih =>
    intro l' h i x hx
    unfold mapMopt at h
    cases hfa : f a with
    | none => rw [hfa] at h; exact absurd h (by simp)
    | some b =>
      rw [hfa] at h
      cases hrec : mapMopt f t with
      | none => rw [hrec] at h; exact absurd h (by simp)
      | some t' =>
        rw [hrec] at h
        cases h
        cases i with
        | zero =>
          rw [List.get?_cons_zero] at hx
          cases hx
          exact ⟨b, by rw [List.get?_cons_zero], hfa⟩
        | succ i' =>
          rw [List.get?_cons_succ] at hx
          obtain ⟨y, hy, hfy⟩ := ih hrec i' x hx
          exact ⟨y, by rw [List.get?_cons_succ]; exact hy, hfy⟩

theorem modify_item_name_spec {customer : List Char} {item item' : Item}
    (h : modify_item_name customer item = some item') :
    ∃ nm, assocGet "name" item = some nm ∧
      assocGet "name" item' = some (prefix_customer customer nm) := by
  unfold modify_item_name at h
  cases hg : assocGet "name" item with
  | none => rw [hg] at h; cases h
  | some nm =>
    rw [hg] at h
    cases h
    exact ⟨nm, rfl, assocGet_assocSet_self _ _ _⟩

theorem modify_key_none {customer : List Char} {key : String} {d : SchemaDoc}
    (hg : assocGet key d = none) : modify_key customer key d = some d := by
  unfold modify_key
  rw [hg]

theorem modify_key_some {customer : List Char} {key : String} {d : SchemaDoc}
    {items : List Item} (hg : assocGet key d = some items) :
    modify_key customer key d =
      (mapMopt (modify_item_name customer) items).map fun its => assocSet key its d := by
  unfold modify_key
  rw [hg]

theorem modify_key_other {customer : List Char} {key k' : String} {d d' : SchemaDoc}
    (h : modify_key customer key d = some d') (hne : k' ≠ key) :
    assocGet k' d' = assocGet k' d := by
  cases hg : assocGet key d with
  | none =>
    rw [modify_key_none hg] at h
    cases h
    rfl
  | some items =>
    rw [modify_key_some hg] at h
    cases hm : mapMopt (modify_item_name customer) items with
    | none => rw [hm] at h; exact absurd h (by simp)
    | some its =>
      rw [hm] at h
      have h2 : assocSet key its d = d' := by
        have := h
        simp at this
        exact this
      rw [← h2]
      exact assocGet_assocSet_ne hne _ _

theorem modify_key_same {customer : List Char} {key : String} {d d' : SchemaDoc}
    (h : modify_key customer key d = some d') :
    ∀ items, assocGet key d = some items →
      ∃ its, assocGet key d' = some its ∧
        mapMopt (modify_item_name customer) items = some its := by
  intro items hg
  rw [modify_key_some hg] at h
  cases hm : mapMopt (modify_item_name customer) items with
  | none => rw [hm] at h; exact absurd h (by simp)
  | some its =>
    rw [hm] at h
    have h2 : assocSet key its d = d' := by
      have := h
      simp at this
      exact this
    rw [← h2]
    exact ⟨its, assocGet_assocSet_self _ _ _, rfl⟩

theorem modify_models_other {customer : List Char} {data d1 : SchemaDoc} {k : String}
    (h : modify_yml_for_models customer data = some d1) (hk : k ∉ modelKeys) :
    assocGet k d1 = assocGet k data := by
  simp only [modelKeys, List.mem_cons, List.not_mem_nil, or_false, not_or] at hk
  obtain ⟨h1, h2, h3⟩ := hk
  unfold modify_yml_for_models at h
  cases ha : modify_key customer "models" data with
  | none => rw [ha, Option.none_bind] at h; cases h
  | some da =>
    rw [ha, Option.some_bind] at h
    cases hb : modify_key customer "seeds" da with
    | none => rw [hb, Option.none_bind] at h; cases h
    | some db =>
      rw [hb, Option.some_bind] at h
      rw [modify_key_other h h3, modify_key_other hb h2, modify_key_other ha h1]

theorem modify_models_key {customer : List Char} {data d1 : SchemaDoc} {k : String}
    (h : modify_yml_for_models customer data = some d1) (hk : k ∈ modelKeys) :
    ∀ items, assocGet k data = some items →
      ∃ its, assocGet k d1 = some its ∧
        mapMopt (modify_item_name customer) items = some its := by
  intro items hg
  unfold modify_yml_for_models at h
  cases ha : modify_key customer "models" data with
  | none => rw [ha, Option.none_bind] at h; cases h
  | some da =>
    rw [ha, Option.some_bind] at h
    cases hb : modify_key customer "seeds" da with
    | none => rw [hb, Option.none_bind] at h; cases h
    | some db =>
      rw [hb, Option.some_bind] at h
      simp only [modelKeys, List.mem_cons, List.not_mem_nil, or_false] at hk
      rcases hk with rfl | rfl | rfl
      · obtain ⟨its, hga, hmap⟩ := modify_key_same ha items hg
        refine ⟨its, ?_, hmap⟩
        rw [modify_key_other h (by decide), modify_key_other hb (by decide), hga]
      · have hda : assocGet "seeds" da = some items := by
          rw [modify_key_other ha (by decide), hg]
        obtain ⟨its, hgb, hmap⟩ := modify_key_same hb items hda
        refine ⟨its, ?_, hmap⟩
        rw [modify_key_other h (by decide), hgb]
      · have hdb : assocGet "snapshots" db = some items := by
          rw [modify_key_other hb (by decide), modify_key_other ha (by decide), hg]
        obtain ⟨its, hgc, hmap⟩ := modify_key_same h items hdb
        exact ⟨its, hgc, hmap⟩

theorem modify_sources_get {customer : List Char} {d1 : SchemaDoc} {srcs : List Item}
    (h : assocGet "sources" d1 = some srcs) :
    assocGet "sources" (modify_yml_for_sources customer d1) =
      some (srcs.map (assocSet "schema" customer)) := by
  unfold modify_yml_for_sources
  rw [h]
  exact assocGet_assocSet_self _ _ _

theorem modify_sources_other {customer : List Char} {d1 : SchemaDoc} {k : String}
    (hne : k ≠ "sources") :
    assocGet k (modify_yml_for_sources customer d1) = assocGet k d1 := by
  unfold modify_yml_for_sources
  cases hg : assocGet "sources" d1 with
  | none => rfl
  | some srcs => exact assocGet_assocSet_ne hne _ _

theorem sources_item_spec {customer : List Char} {srcs : List Item} (i : Nat) (item : Item)
    (hget : srcs.get? i = some item) :
    ∃ item', (srcs.map (assocSet "schema" customer)).get? i = some item' ∧
      assocGet "schema" item' = some customer ∧
      assocGet "name" item' = assocGet "name" item := by
  refine ⟨assocSet "schema" customer item, ?_, assocGet_assocSet_self _ _ _,
    assocGet_assocSet_ne (by decide) _ _⟩
  rw [List.get?_map, hget]
  rfl

theorem schema_file_contents_spec (customer : List Char) (data d' : SchemaDoc)
    (h : schema_file_contents customer data = some d') :
    (∀ srcs, assocGet "sources" data = some srcs →
      ∃ srcs', assocGet "sources" d' = some srcs' ∧ srcs'.length = srcs.length ∧
        ∀ i item, srcs.get? i = some item →
          ∃ item', srcs'.get? i = some item' ∧
            assocGet "schema" item' = some customer ∧
            assocGet "name" item' = assocGet "name" item) ∧
    (∀ k, k ∈ modelKeys → ∀ items, assocGet k data = some items →
      ∃ items', assocGet k d' = some items' ∧ items'.length = items.length ∧
        ∀ i item, items.get? i = some item →
          ∃ item' nm, items'.get? i = some item' ∧
            assocGet "name" item = some nm ∧
            assocGet "name" item' = some (prefix_customer customer nm)) := by
  unfold schema_file_contents at h
  by_cases hg : (modelKeys.any fun k => (assocGet k data).isSome) = true
  · rw [if_pos hg] at h
    cases hmm : modify_yml_for_models customer data with
    | none => rw [hmm, Option.none_bind] at h; cases h
    | some d1 =>
      rw [hmm, Option.some_bind] at h
      injection h with h
      have hsrcpres : assocGet "sources" d1 = assocGet "sources" data :=
        modify_models_other hmm (by decide)
      constructor
      · intro srcs hsrc
        have hs1 : assocGet "sources" d1 = some srcs := by rw [hsrcpres, hsrc]
        refine ⟨srcs.map (assocSet "schema" customer), ?_, by simp, ?_⟩
        · rw [← h, if_pos (by rw [hs1]; rfl)]
          exact modify_sources_get hs1
        · intro i item hget
          exact sources_item_spec i item hget
      · intro k hk items hitems
        obtain ⟨its, hget1, hmap⟩ := modify_models_key hmm hk items hitems
        have hkne : k ≠ "sources" := by
          simp only [modelKeys, List.mem_cons, List.not_mem_nil, or_false] at hk
          rcases hk with rfl | rfl | rfl <;> decide
        have hgetd : assocGet k d' = some its := by
          rw [← h]
          split
          · rw [modify_sources_other hkne]; exact hget1
          · exact hget1
        refine ⟨its, hgetd, mapMopt_length hmap, ?_⟩
        intro i item hget
        obtain ⟨y, hy, hfy⟩ := mapMopt_get hmap i item hget
        obtain ⟨nm, hnm1, hnm2⟩ := modify_item_name_spec hfy
        exact ⟨y, nm, hy, hnm1, hnm2⟩
  · rw [if_neg hg, Option.some_bind] at h
    injection h with h
    constructor
    · intro srcs hsrc
      refine ⟨srcs.map (assocSet "schema" customer), ?_, by simp, ?_⟩
      · rw [← h, if_pos (by rw [hsrc]; rfl)]
        exact modify_sources_get hsrc
      · intro i item hget
        exact sources_item_spec i item hget
    · intro k hk items hitems
      exfalso
      rw [List.any_eq_true] at hg
      exact hg ⟨k, hk, by rw [hitems]; rfl⟩

/-! ## The store-level transform returns its input document -/

theorem hschema_returns_input {customer : List Char} {d : HDoc} {st : List Item}
    {res : HDoc × List Item} (h : hschema_file_contents customer d st = some res) :
    res.1 = d := by
  unfold hschema_file_contents at h
  rw [Option.bind_eq_some] at h
  obtain ⟨st1, h1, h⟩ := h
  rw [Option.bind_eq_some] at h
  obtain ⟨st2, h2, h⟩ := h
  cases h
  rfl

/-! ## Claim theorems -/

/-- C1, counterexample: the Source transformer is not idempotent.  On
empty input, one application prepends the configuration call; the second
application appends a duplicate pair of schema/alias arguments to it, so
applying the transformer twice differs from applying it once. -/
theorem c1_counterexample :
    model_file_contents "acme".toList "orders".toList
      (model_file_contents "acme".toList "orders".toList []) ≠
    model_file_contents "acme".toList "orders".toList [] := by
  decide

/-- C1, amended: the Source transformer is not idempotent.  A second
application appends a second copy of the schema/alias arguments to the
configuration call (the prepend step alone is suppressed on the second
run): on empty input, one application yields a configuration call with
one copy of the arguments and two applications yield two copies. -/
theorem c1_theorem :
    model_file_contents "acme".toList "orders".toList [] =
      "\x7b\x7b config(schema='acme', alias='orders') \x7d\x7d\n\n".toList ∧
    model_file_contents "acme".toList "orders".toList
      (model_file_contents "acme".toList "orders".toList []) =
      "\x7b\x7b config(schema='acme', alias='orders', schema='acme', alias='orders') \x7d\x7d\n\n".toList := by
  decide

/-- C2: the reference-rewriting pass rewrites every reference-call target,
in either quoting style, to the customer-prefixed form, and leaves all
other text unchanged.  The subject is presented as an honest chunk
decomposition (plain text free of reference openers, and reference calls
whose targets are nonempty literals without quotes, parentheses or
newlines); the output is the same decomposition with every target
prefixed. -/
theorem c2_theorem (customer : List Char) (cs : List RChunk)
    (hc : cleanTok customer) (h : ∀ c ∈ cs, rchunkOK c) :
    modify_refs customer (rrenders cs) = rrenders (cs.map (rwRefs customer)) :=
  modify_refs_chunks customer cs hc h

/-- C2, witness: the specification example. -/
theorem c2_witness :
    cleanTok "acme".toList ∧
    modify_refs "acme".toList "select * from \x7b\x7b ref('orders') \x7d\x7d".toList =
      "select * from \x7b\x7b ref('acme_orders') \x7d\x7d".toList := by
  refine ⟨by decide, ?_⟩
  have h := c2_theorem "acme".toList
    [RChunk.plain "select * from \x7b\x7b ".toList, RChunk.refS "orders".toList,
     RChunk.plain " \x7d\x7d".toList] (by decide)
    (by
      intro c hm
      simp only [List.mem_cons, List.not_mem_nil, or_false] at hm
      rcases hm with rfl | rfl | rfl
      · decide
      · decide
      · decide)
  have h1 : rrenders
      [RChunk.plain "select * from \x7b\x7b ".toList, RChunk.refS "orders".toList,
       RChunk.plain " \x7d\x7d".toList] =
      "select * from \x7b\x7b ref('orders') \x7d\x7d".toList := by decide
  have h2 : rrenders
      ([RChunk.plain "select * from \x7b\x7b ".toList, RChunk.refS "orders".toList,
        RChunk.plain " \x7d\x7d".toList].map (rwRefs "acme".toList)) =
      "select * from \x7b\x7b ref('acme_orders') \x7d\x7d".toList := by decide
  rw [h1, h2] at h
  exact h

/-- C3, counterexample: a text with no configuration call at all, which
happens to contain the literal required text, is returned without any
prepended configuration call, because the substring check suppresses the
prepend. -/
theorem c3_counterexample :
    ¬ configL <:+: "-- schema='acme', alias='orders'".toList ∧
    containsSub (REQUIRED_CONFIGS "acme".toList "orders".toList)
      "-- schema='acme', alias='orders'".toList = true ∧
    model_file_contents "acme".toList "orders".toList
      "-- schema='acme', alias='orders'".toList =
      "-- schema='acme', alias='orders'".toList ∧
    ¬ ("\x7b\x7b config(".toList <+:
        model_file_contents "acme".toList "orders".toList
          "-- schema='acme', alias='orders'".toList) := by
  decide

/-- C3, amended: for every source text in which the pattern matcher finds
no configuration opener and which does not contain the literal required
text anywhere, the configuration pass prepends a configuration call
containing exactly the schema/alias pair, a blank line, and then the
original text unchanged. -/
theorem c3_theorem (customer stem s : List Char)
    (h1 : ¬ configL <:+: s)
    (h2 : containsSub (REQUIRED_CONFIGS customer stem) s = false) :
    modify_config customer stem s =
      "\x7b\x7b config(".toList ++ REQUIRED_CONFIGS customer stem ++
        ") \x7d\x7d\n\n".toList ++ s :=
  modify_config_prepends customer stem s h1 h2

/-- C3, witness: configuration injection on a plain select. -/
theorem c3_witness :
    (¬ configL <:+: "select 1".toList) ∧
    modify_config "acme".toList "orders".toList "select 1".toList =
      "\x7b\x7b config(".toList ++ REQUIRED_CONFIGS "acme".toList "orders".toList ++
        ") \x7d\x7d\n\n".toList ++ "select 1".toList := by
  refine ⟨by decide, ?_⟩
  exact c3_theorem "acme".toList "orders".toList "select 1".toList (by decide) (by decide)

/-- C4: configuration augmentation on the specification example: the
existing argument is kept, the schema/alias pair is appended after it,
and the rest of the text is untouched, both after the configuration pass
alone and after the whole Source transformer. -/
theorem c4_theorem :
    modify_config "acme".toList "orders".toList
      "\x7b\x7b config(materialized='table') \x7d\x7d\nselect 1".toList =
      "\x7b\x7b config(materialized='table', schema='acme', alias='orders') \x7d\x7d\nselect 1".toList ∧
    model_file_contents "acme".toList "orders".toList
      "\x7b\x7b config(materialized='table') \x7d\x7d\nselect 1".toList =
      "\x7b\x7b config(materialized='table', schema='acme', alias='orders') \x7d\x7d\nselect 1".toList := by
  decide

/-- C5, counterexample: with two configuration calls in the text, the
substitution augments both of them, not only the first: the claimed
output, in which the second call is unchanged, is not the actual
output. -/
theorem c5_counterexample :
    modify_config "acme".toList "orders".toList
      "\x7b\x7b config(a='1') \x7d\x7d\n\x7b\x7b config(b='2') \x7d\x7d".toList =
      "\x7b\x7b config(a='1', schema='acme', alias='orders') \x7d\x7d\n\x7b\x7b config(b='2', schema='acme', alias='orders') \x7d\x7d".toList ∧
    modify_config "acme".toList "orders".toList
      "\x7b\x7b config(a='1') \x7d\x7d\n\x7b\x7b config(b='2') \x7d\x7d".toList ≠
      "\x7b\x7b config(a='1', schema='acme', alias='orders') \x7d\x7d\n\x7b\x7b config(b='2') \x7d\x7d".toList := by
  decide

/-- C5, amended: the configuration pass augments the argument list of
every configuration call in the text (the substitution replaces all
matches): for a text with two honest configuration sites, both argument
lists receive the appended schema/alias pair. -/
theorem c5_theorem (customer stem A a1 B a2 C : List Char)
    (hA : InertOK configL A) (hB : InertOK configL B) (hC : InertOK configL C)
    (ha1 : a1 ≠ [] ∧ '(' ∉ a1 ∧ ')' ∉ a1) (ha2 : a2 ≠ [] ∧ '(' ∉ a2 ∧ ')' ∉ a2) :
    modify_config customer stem
      (A ++ (configL ++ a1 ++ configR) ++ B ++ (configL ++ a2 ++ configR) ++ C) =
      A ++ (configL ++ append_required_configs customer stem a1 ++ configR) ++ B ++
        (configL ++ append_required_configs customer stem a2 ++ configR) ++ C :=
  modify_config_two_sites customer stem A a1 B a2 C hA hB hC ha1 ha2

/-- C5, witness: both configuration calls of a concrete two-call text are
augmented. -/
theorem c5_witness :
    InertOK configL "\x7b\x7b ".toList ∧
    modify_config "acme".toList "orders".toList
      ("\x7b\x7b ".toList ++ (configL ++ "a='1'".toList ++ configR) ++
        " \x7d\x7d\n\x7b\x7b ".toList ++ (configL ++ "b='2'".toList ++ configR) ++
        " \x7d\x7d".toList) =
      "\x7b\x7b ".toList ++
        (configL ++ append_required_configs "acme".toList "orders".toList "a='1'".toList ++
          configR) ++ " \x7d\x7d\n\x7b\x7b ".toList ++
        (configL ++ append_required_configs "acme".toList "orders".toList "b='2'".toList ++
          configR) ++ " \x7d\x7d".toList := by
  refine ⟨by decide, ?_⟩
  exact c5_theorem "acme".toList "orders".toList "\x7b\x7b ".toList "a='1'".toList
    " \x7d\x7d\n\x7b\x7b ".toList "b='2'".toList " \x7d\x7d".toList
    (by decide) (by decide) (by decide) (by decide) (by decide)

/-- C6: after the structured transform succeeds, every entry under the
sources key has its schema overwritten with the customer and its name
unchanged, and every entry under a present model-like key has its name
rewritten to the customer-prefixed original name, exactly once; documents
with none, one or both key families are covered because each part is
conditional on its key being present. -/
theorem c6_theorem (customer : List Char) (data d' : SchemaDoc)
    (h : schema_file_contents customer data = some d') :
    (∀ srcs, assocGet "sources" data = some srcs →
      ∃ srcs', assocGet "sources" d' = some srcs' ∧ srcs'.length = srcs.length ∧
        ∀ i item, srcs.get? i = some item →
          ∃ item', srcs'.get? i = some item' ∧
            assocGet "schema" item' = some customer ∧
            assocGet "name" item' = assocGet "name" item) ∧
    (∀ k, k ∈ modelKeys → ∀ items, assocGet k data = some items →
      ∃ items', assocGet k d' = some items' ∧ items'.length = items.length ∧
        ∀ i item, items.get? i = some item →
          ∃ item' nm, items'.get? i = some item' ∧
            assocGet "name" item = some nm ∧
            assocGet "name" item' = some (prefix_customer customer nm)) :=
  schema_file_contents_spec customer data d' h

/-- C6, witness: a concrete document with one model and one source. -/
theorem c6_witness :
    schema_file_contents "acme".toList exDoc = some exDocOut ∧
    (∃ srcs', assocGet "sources" exDocOut = some srcs' ∧ srcs'.length = 1) ∧
    (∃ items', assocGet "models" exDocOut = some items' ∧ items'.length = 1) := by
  have hrun : schema_file_contents "acme".toList exDoc = some exDocOut := by decide
  refine ⟨hrun, ?_, ?_⟩
  · obtain ⟨hs, -⟩ := c6_theorem "acme".toList exDoc exDocOut hrun
    obtain ⟨srcs', hget, hlen, -⟩ := hs
      [[("name", "raw_orders".toList), ("schema", "landing".toList)]] (by decide)
    exact ⟨srcs', hget, by rw [hlen]; rfl⟩
  · obtain ⟨-, hm⟩ := c6_theorem "acme".toList exDoc exDocOut hrun
    obtain ⟨items', hget, hlen, -⟩ := hm "models" (by decide)
      [[("name", "orders".toList)]] (by decide)
    exact ⟨items', hget, by rw [hlen]; rfl⟩

/-- C7, counterexample: the structured transform mutates the entry store
in place: after a successful run on a one-model document the store
differs from the input store, and the returned document is the very
input document, not a copy. -/
theorem c7_counterexample :
    hschema_file_contents "acme".toList exHDoc exStore = some (exHDoc, exStoreOut) ∧
    exStoreOut ≠ exStore := by
  decide

/-- C7, amended: the structured transform returns the very document it
was given (the script returns the data object it mutated), with the
renames applied to the underlying entry store rather than to a copy. -/
theorem c7_theorem (customer : List Char) (d : HDoc) (st : List Item)
    (res : HDoc × List Item) (h : hschema_file_contents customer d st = some res) :
    res.1 = d :=
  hschema_returns_input h

/-- C7, witness: the returned document of the concrete run is the input
document. -/
theorem c7_witness : (exHDoc, exStoreOut).1 = exHDoc :=
  c7_theorem "acme".toList exHDoc exStore (exHDoc, exStoreOut) (by decide)

/-- C8: for a fixed customer, the renaming functions (the reference
prefixer and the file renamer) are injective: distinct original names
yield distinct rewritten names. -/
theorem c8_theorem (customer a b : List Char) (h : a ≠ b) :
    prefix_customer customer a ≠ prefix_customer customer b ∧
    fileParser_file_name customer a ≠ fileParser_file_name customer b := by
  constructor
  · intro he
    apply h
    have := List.append_cancel_left he
    injection this
  · intro he
    apply h
    have := List.append_cancel_left he
    injection this

/-- C8, witness: two concrete distinct names stay distinct. -/
theorem c8_witness :
    prefix_customer "acme".toList "orders".toList ≠
      prefix_customer "acme".toList "users".toList := by
  have h := c8_theorem "acme".toList "orders".toList "users".toList (by decide)
  exact h.1

/-- C9: a file whose suffix is none of the recognized ones selects no
parser, prints the skip notice, and produces zero output files, for any
directory. -/
theorem c9_theorem (suffix directory : String)
    (h : suffix ∉ [".sql", ".yml", ".yaml", ".md"]) :
    parse_directory_classify suffix directory = (none, true) ∧
    files_written (parse_directory_classify suffix directory).1 = 0 := by
  simp only [List.mem_cons, List.not_mem_nil, or_false, not_or] at h
  obtain ⟨h1, h2, h3, h4⟩ := h
  unfold parse_directory_classify
  rw [if_neg h1, if_neg h2, if_neg h3, if_neg h4]
  exact ⟨rfl, rfl⟩

/-- C9, witness: a txt file under the models directory. -/
theorem c9_witness :
    parse_directory_classify ".txt" "models" = (none, true) ∧
    files_written (parse_directory_classify ".txt" "models").1 = 0 :=
  c9_theorem ".txt" "models" (by decide)

/-- C10: a sql file whose directory is none of models, seeds, snapshots
or macros selects no parser and is skipped silently: zero output files
and no skip notice, unlike the unknown-extension case. -/
theorem c10_theorem (directory : String)
    (h : directory ∉ ["models", "seeds", "snapshots", "macros"]) :
    parse_directory_classify ".sql" directory = (none, false) ∧
    files_written (parse_directory_classify ".sql" directory).1 = 0 := by
  simp only [List.mem_cons, List.not_mem_nil, or_false, not_or] at h
  obtain ⟨h1, h2, h3, h4⟩ := h
  unfold parse_directory_classify
  rw [if_pos rfl, if_neg (by simp [h1, h2, h3]), if_neg h4]
  exact ⟨rfl, rfl⟩

/-- C10, witness: a sql file under an analyses directory. -/
theorem c10_witness :
    parse_directory_classify ".sql" "analyses" = (none, false) ∧
    files_written (parse_directory_classify ".sql" "analyses").1 = 0 :=
  c10_theorem "analyses" (by decide)
